import Mathlib

/-!
Verification of the tag-to-sport classification routine
`predict_sport_from_tags` from `src/app.py` of the sport-predict-app
repository.

The routine is a pure function over a list of tag records: it builds a
scoreboard mapping each sport category of a fixed keyword table to the
maximum confidence of any tag whose lowercased name contains one of the
category's keywords as a substring, then returns the category with the
greatest score (Python's `max` keeps the first maximal key), its score,
and the scoreboard.

Shallow embedding choices:
* confidences are rationals (`ℚ`); the routine only compares and takes
  maxima of confidences, never adds or rounds, so this models the
  source's floats faithfully on spec-valid inputs;
* a tag record is a pair of optional fields, since the source reads
  `tag["name"]` (raising `KeyError` when absent) and
  `tag.get("confidence", 0.0)` (defaulting when absent);
* the scoreboard is an association list in the declared order of the
  keyword table, matching Python's insertion-ordered `dict`;
* the Python exceptions the routine can raise become an explicit error
  type: `invalidInput` models the `KeyError` on a tag without a name
  (the condition the spec names `InvalidInput`), and `emptyScores`
  models the `ValueError` `max` would raise on an empty scoreboard
  (provably unreachable, since the table is non-empty).
-/

set_option maxRecDepth 10000

namespace SportApp

/-- `strStarts needle hay` holds when `needle` is a prefix of `hay`
(character lists). -/
def strStarts : List Char → List Char → Bool
  | [], _ => true
  | _ :: _, [] => false
  | a :: as, b :: bs => a == b && strStarts as bs

/-- `occursIn needle hay` holds when `needle` occurs contiguously inside
`hay`, i.e. Python's `needle in hay` on strings. -/
def occursIn (needle : List Char) : List Char → Bool
  | [] => needle.isEmpty
  | b :: t => strStarts needle (b :: t) || occursIn needle t

/-- Python's `kw in name` substring test on strings. -/
def kwIn (kw name : String) : Bool :=
  occursIn kw.data name.data

/-- Python's `name.lower()`: lowercase each character (ASCII fold, the
same per-character fold as Lean's `String.toLower`, written as a
structural map over the character list). -/
def lowerStr (s : String) : String :=
  String.mk (s.data.map Char.toLower)

/-- A tag record handed to the classifier: the source reads `tag["name"]`
(absent field raises) and `tag.get("confidence", 0.0)` (absent field
defaults to 0.0), so both fields are optional. -/
structure Tag where
  name : Option String
  confidence : Option ℚ
  deriving DecidableEq

/-- The fixed keyword table `SPORT_KEYWORDS` of `predict_sport_from_tags`
(src/app.py lines 247-315), in declared order. -/
def SPORT_KEYWORDS : List (String × List String) := [
  ("Football (Soccer)", [
    "soccer", "football", "soccer ball", "football player",
    "soccer player", "goalkeeper", "goal post", "football stadium"]),
  ("Basketball", [
    "basketball", "basketball player", "basketball court",
    "basketball hoop", "basketball uniform"]),
  ("Tennis", [
    "tennis", "tennis player", "tennis racket",
    "tennis court", "tennis ball"]),
  ("Swimming", [
    "swimming", "swimmer", "swimming pool",
    "swimwear", "diving platform"]),
  ("Athletics / Running", [
    "running", "runner", "track", "athletics",
    "sprinter", "hurdles", "relay race", "marathon"]),
  ("Volleyball", [
    "volleyball", "volleyball player", "volleyball net",
    "beach volleyball"]),
  ("Rugby", [
    "rugby", "rugby ball", "rugby player"]),
  ("Baseball", [
    "baseball", "baseball bat", "baseball glove",
    "baseball player", "baseball field"]),
  ("Cricket", [
    "cricket", "cricket bat", "cricket player",
    "cricket ball", "wicket"]),
  ("American Football", [
    "american football", "football helmet",
    "american football player", "football pads", "nfl"]),
  ("Golf", [
    "golf", "golf course", "golf club", "golfer"]),
  ("Boxing", [
    "boxing", "boxer", "boxing ring", "boxing gloves"]),
  ("Martial Arts / MMA", [
    "martial arts", "karate", "judo", "taekwondo",
    "mma", "mixed martial arts", "kickboxing"]),
  ("Cycling", [
    "cycling", "cyclist", "bicycle race",
    "bike race", "mountain biking", "road cycling"]),
  ("Ski / Snowboard", [
    "skiing", "skier", "ski slope", "snowboard", "snowboarding"]),
  ("Surfing", [
    "surfing", "surfer", "surfboard", "wave riding"]),
  ("Gymnastics", [
    "gymnastics", "gymnast", "balance beam",
    "uneven bars", "pommel horse", "floor exercise"]),
  ("Ice Hockey", [
    "ice hockey", "hockey stick", "hockey player",
    "hockey puck", "ice rink"])]

/-- The per-request scoreboard: category name paired with its current
best confidence, in the table's declared order (Python's insertion-ordered
`dict`). -/
abbrev ScoreBoard := List (String × ℚ)

/-- `scores = {sport: 0.0 for sport in SPORT_KEYWORDS}` (src/app.py
line 318). -/
def initScores : ScoreBoard :=
  SPORT_KEYWORDS.map fun p => (p.1, 0)

/-- `scores[sport] = max(scores[sport], conf)` (src/app.py line 329):
replace the value stored under `sport` by its max with `conf`. -/
def updateScore (sc : ScoreBoard) (sport : String) (c : ℚ) : ScoreBoard :=
  sc.map fun p => if p.1 = sport then (p.1, max p.2 c) else p

/-- The inner double loop of `predict_sport_from_tags` for a single tag
(src/app.py lines 325-329): for every category and every keyword, if the
keyword is a substring of the lowercased tag name, update that
category's score. `name` is already lowercased, `conf` already
defaulted. -/
def processTag (sc : ScoreBoard) (name : String) (conf : ℚ) : ScoreBoard :=
  SPORT_KEYWORDS.foldl
    (fun sc1 entry =>
      entry.2.foldl
        (fun sc2 kw => if kwIn kw name then updateScore sc2 entry.1 conf else sc2)
        sc1)
    sc

/-- The exceptions `predict_sport_from_tags` can raise: `invalidInput`
models the `KeyError` from `tag["name"]` on a tag lacking a name (the
condition §7 of the spec names `InvalidInput`); `emptyScores` models the
`ValueError` Python's `max` raises on an empty scoreboard (unreachable:
the keyword table is non-empty). -/
inductive PredictError
  | invalidInput
  | emptyScores
  deriving DecidableEq

/-- One iteration of the tag loop (src/app.py lines 321-329):
`name = tag["name"].lower()` raises when the name is absent, otherwise
`conf = tag.get("confidence", 0.0)` and the keyword loops run. -/
def stepTag (sc : ScoreBoard) (t : Tag) : Except PredictError ScoreBoard :=
  match t.name with
  | none => .error .invalidInput
  | some n => .ok (processTag sc (lowerStr n) (t.confidence.getD 0))

/-- The whole tag loop: fold `stepTag` over the tags starting from the
all-zero scoreboard. -/
def computeScores (tags : List Tag) : Except PredictError ScoreBoard :=
  tags.foldlM stepTag initScores

/-- Python's `max(scores, key=scores.get)` over a non-empty scoreboard
with first element `b`: scan left to right, replacing the current best
only on strict improvement, so the first maximal entry wins. -/
def pickBest (b : String × ℚ) (l : ScoreBoard) : String × ℚ :=
  l.foldl (fun best x => if x.2 > best.2 then x else best) b

/-- `predict_sport_from_tags` (src/app.py lines 244-333): build the
scoreboard from the tags, then return the best sport, its score
(`scores[best_sport]`, which is the value of the first maximal entry
since the table's keys are distinct), and the full scoreboard. -/
def predict_sport_from_tags (tags : List Tag) :
    Except PredictError (String × ℚ × ScoreBoard) :=
  match computeScores tags with
  | .error e => .error e
  | .ok scores =>
    match scores with
    | [] => .error .emptyScores
    | h :: t =>
      let best := pickBest h t
      .ok (best.1, best.2, scores)

/-! ### Specification-side definitions

These restate, in the spec's vocabulary, what a category's final score
should be; the development proves the implementation meets them. -/

/-- The lowercased name a tag contributes under (empty for a nameless
tag; only used on tags that have a name). -/
def lowerName (t : Tag) : String :=
  lowerStr (t.name.getD "")

/-- The tag's confidence, 0.0 when absent (`tag.get("confidence", 0.0)`). -/
def confOf (t : Tag) : ℚ :=
  t.confidence.getD 0

/-- A tag matches a category's keyword list when some keyword is a
substring of the tag's lowercased name. -/
def tagMatches (kws : List String) (t : Tag) : Bool :=
  kws.any fun kw => kwIn kw (lowerName t)

/-- The spec's score for one category: the maximum confidence among the
tags matching the category's keywords, and 0.0 when no tag matches. -/
def specScore (kws : List String) (tags : List Tag) : ℚ :=
  match (tags.filter (tagMatches kws)).map confOf with
  | [] => 0
  | c :: cs => cs.foldl max c

/-- The implementation's per-category score: fold the conditional max
over the tags, starting from 0. -/
def entryScore (kws : List String) (tags : List Tag) : ℚ :=
  tags.foldl (fun v t => if tagMatches kws t then max v (confOf t) else v) 0

/-- `anyKw kws name`: some keyword of `kws` is a substring of `name`. -/
def anyKw (kws : List String) (name : String) : Bool :=
  kws.any fun kw => kwIn kw name

/-- A rational written as numerator over denominator in lowest terms,
used for the concrete confidences of the scenario claims: unlike the
`9/10` notation, which elaborates through `Rat.div`, this form is
kernel-reducible, so concrete runs of the classifier evaluate. -/
def qv (n : ℤ) (d : ℕ) (h : d ≠ 0 := by decide)
    (c : n.natAbs.Coprime d := by decide) : ℚ := ⟨n, d, h, c⟩

/-- The scoreboard the implementation ends with: every category of the
table paired with its accumulated score. -/
def finalBoard (tags : List Tag) : ScoreBoard :=
  SPORT_KEYWORDS.map fun p => (p.1, entryScore p.2 tags)

/-! ### Structural lemmas about the scoreboard fold -/

lemma sportKeys_pairwise : SPORT_KEYWORDS.Pairwise fun a b => a.1 ≠ b.1 := by
  decide

lemma updateScore_map (L : List (String × List String))
    (g : String × List String → ℚ) (s : String) (c : ℚ) :
    updateScore (L.map fun p => (p.1, g p)) s c
      = L.map fun p => (p.1, if p.1 = s then max (g p) c else g p) := by
  unfold updateScore
  rw [List.map_map]
  apply List.map_congr_left
  intro p _
  by_cases hp : p.1 = s <;> simp [hp]

lemma kwFold_map (kws : List String) (L : List (String × List String))
    (g : String × List String → ℚ) (s name : String) (c : ℚ) :
    kws.foldl
        (fun sc2 kw => if kwIn kw name then updateScore sc2 s c else sc2)
        (L.map fun p => (p.1, g p))
      = L.map fun p =>
          (p.1, if p.1 = s ∧ anyKw kws name then max (g p) c else g p) := by
  induction kws generalizing g with
  | nil => simp [anyKw]
  | cons kw rest ih =>
    by_cases hkw : kwIn kw name
    · rw [List.foldl_cons, if_pos hkw, updateScore_map, ih]
      apply List.map_congr_left
      intro p _
      by_cases hp : p.1 = s
      · simp [hp, anyKw, hkw, max_assoc, max_self]
      · simp [hp]
    · rw [List.foldl_cons, if_neg hkw, ih]
      apply List.map_congr_left
      intro p _
      simp [anyKw, hkw]

lemma outerFold_map (E : List (String × List String))
    (L : List (String × List String))
    (g : String × List String → ℚ) (name : String) (c : ℚ) :
    E.foldl
        (fun sc1 entry =>
          entry.2.foldl
            (fun sc2 kw => if kwIn kw name then updateScore sc2 entry.1 c else sc2)
            sc1)
        (L.map fun p => (p.1, g p))
      = L.map fun p =>
          (p.1, if E.any (fun e => e.1 == p.1 && anyKw e.2 name)
                then max (g p) c else g p) := by
  induction E generalizing g with
  | nil => simp
  | cons e rest ih =>
    rw [List.foldl_cons, kwFold_map, ih]
    apply List.map_congr_left
    intro p _
    rw [List.any_cons]
    by_cases hp : e.1 = p.1
    · by_cases hm : anyKw e.2 name
      · have h1 : (p.1 = e.1 ∧ anyKw e.2 name) := ⟨hp.symm, hm⟩
        simp only [if_pos h1, hp, hm, beq_self_eq_true, Bool.and_true,
          Bool.true_or, if_pos]
        by_cases hr : rest.any (fun x => x.1 == p.1 && anyKw x.2 name)
        · simp [hr, max_assoc, max_self]
        · simp [hr]
      · have h1 : ¬ (p.1 = e.1 ∧ anyKw e.2 name) := by
          intro h; exact hm h.2
        have hb : anyKw e.2 name = false := by
          simpa using hm
        rw [hb, Bool.and_false, Bool.false_or]
        simp
    · have h1 : ¬ (p.1 = e.1 ∧ anyKw e.2 name) := by
        intro h; exact hp h.1.symm
      have h2 : (e.1 == p.1) = false := by
        simp [hp]
      simp only [if_neg h1, h2, Bool.false_and, Bool.false_or]

lemma any_key_of_pairwise {β : Type} (X : String × β → Bool) :
    ∀ (L : List (String × β)) (p : String × β),
      L.Pairwise (fun a b => a.1 ≠ b.1) → p ∈ L →
      (L.any fun e => e.1 == p.1 && X e) = X p := by
  intro L
  induction L with
  | nil => intro p _ hp; cases hp
  | cons q rest ih =>
    intro p hnd hp
    rw [List.pairwise_cons] at hnd
    rw [List.any_cons]
    rcases List.mem_cons.mp hp with hpq | hpr
    · subst hpq
      have hrest : rest.any (fun e => e.1 == p.1 && X e) = false := by
        rw [List.any_eq_false]
        intro e he
        simp [(hnd.1 e he).symm]
      simp [hrest]
    · have hq : (q.1 == p.1) = false := by
        simp [hnd.1 p hpr]
      simp only [hq, Bool.false_and, Bool.false_or]
      exact ih p hnd.2 hpr

lemma lookup_map_key {β γ : Type} (f : String × β → γ) :
    ∀ (L : List (String × β)) (p : String × β),
      L.Pairwise (fun a b => a.1 ≠ b.1) → p ∈ L →
      (L.map fun q => (q.1, f q)).lookup p.1 = some (f p) := by
  intro L
  induction L with
  | nil => intro p _ hp; cases hp
  | cons q rest ih =>
    intro p hnd hp
    rw [List.pairwise_cons] at hnd
    rcases List.mem_cons.mp hp with hpq | hpr
    · subst hpq
      simp [List.lookup_cons]
    · have hq : (p.1 == q.1) = false := by
        simp [(hnd.1 p hpr).symm]
      simp only [List.map_cons, List.lookup_cons, hq]
      exact ih p hnd.2 hpr

lemma lookup_eq_of_mem {β : Type} :
    ∀ (L : List (String × β)),
      L.Pairwise (fun a b => a.1 ≠ b.1) → ∀ {k : String} {v : β},
      (k, v) ∈ L → L.lookup k = some v := by
  intro L
  induction L with
  | nil => intro _ _ _ hp; cases hp
  | cons q rest ih =>
    intro hnd k v hp
    obtain ⟨qk, qv⟩ := q
    rw [List.pairwise_cons] at hnd
    rcases List.mem_cons.mp hp with hpq | hpr
    · injection hpq with h1 h2
      subst h1
      subst h2
      simp [List.lookup_cons]
    · have hq : (k == qk) = false := by
        have hne : k ≠ qk := fun h => hnd.1 _ hpr h.symm
        simpa using hne
      rw [List.lookup_cons]
      simp only [hq, Bool.false_eq_true, if_false]
      exact ih hnd.2 hpr

/-- Processing one tag turns the scoreboard `fun p => g p` into
`fun p => max (g p) conf` exactly on the categories one of whose
keywords occurs in the tag's name. -/
lemma processTag_map (g : String × List String → ℚ) (name : String) (c : ℚ) :
    processTag (SPORT_KEYWORDS.map fun p => (p.1, g p)) name c
      = SPORT_KEYWORDS.map fun p =>
          (p.1, if anyKw p.2 name then max (g p) c else g p) := by
  unfold processTag
  rw [outerFold_map]
  apply List.map_congr_left
  intro p hp
  rw [any_key_of_pairwise (fun e => anyKw e.2 name) SPORT_KEYWORDS p
    sportKeys_pairwise hp]

/-- The tag loop on well-named tags: starting from the scoreboard
`fun p => g p`, it succeeds and accumulates each category's conditional
max over the tags. -/
lemma foldlM_stepTag (tags : List Tag) :
    ∀ g : String × List String → ℚ, (∀ t ∈ tags, t.name.isSome) →
    tags.foldlM stepTag (SPORT_KEYWORDS.map fun p => (p.1, g p))
      = .ok (SPORT_KEYWORDS.map fun p =>
          (p.1, tags.foldl
            (fun v t => if tagMatches p.2 t then max v (confOf t) else v)
            (g p))) := by
  induction tags with
  | nil => intro g _; rfl
  | cons t rest ih =>
    intro g hn
    obtain ⟨n, hn1⟩ := Option.isSome_iff_exists.mp (hn t (List.mem_cons_self t rest))
    have hrest : ∀ t' ∈ rest, t'.name.isSome := fun t' ht' =>
      hn t' (List.mem_cons_of_mem t ht')
    have hstep : stepTag (SPORT_KEYWORDS.map fun p => (p.1, g p)) t
        = .ok (SPORT_KEYWORDS.map fun p =>
            (p.1, if tagMatches p.2 t then max (g p) (confOf t) else g p)) := by
      simp only [stepTag, hn1]
      rw [processTag_map]
      congr 1
      apply List.map_congr_left
      intro p _
      have hm : tagMatches p.2 t = anyKw p.2 (lowerStr n) := by
        simp only [tagMatches, anyKw, lowerName, hn1, Option.getD_some]
      rw [hm]
      rfl
    rw [List.foldlM_cons, hstep]
    show List.foldlM stepTag (SPORT_KEYWORDS.map fun p =>
        (p.1, if tagMatches p.2 t then max (g p) (confOf t) else g p)) rest = _
    rw [ih _ hrest]
    rfl

/-- A tag without a name aborts the whole loop with `invalidInput`
(Python's `KeyError` from `tag["name"]`), whatever the scoreboard. -/
lemma foldlM_stepTag_err :
    ∀ (tags : List Tag) (sc : ScoreBoard), (∃ t ∈ tags, t.name = none) →
      tags.foldlM stepTag sc = .error .invalidInput := by
  intro tags
  induction tags with
  | nil => intro sc h; obtain ⟨t, ht, _⟩ := h; cases ht
  | cons t rest ih =>
    intro sc h
    rw [List.foldlM_cons]
    cases hn : t.name with
    | none =>
      have : stepTag sc t = .error .invalidInput := by rw [stepTag, hn]
      rw [this]
      rfl
    | some n =>
      have hstep : stepTag sc t
          = .ok (processTag sc (lowerStr n) (t.confidence.getD 0)) := by
        rw [stepTag, hn]
      rw [hstep]
      obtain ⟨t', ht', hnone⟩ := h
      rcases List.mem_cons.mp ht' with rfl | hmem
      · rw [hn] at hnone; cases hnone
      · exact ih _ ⟨t', hmem, hnone⟩

/-- The scoreboard of a successful run is `finalBoard`. -/
lemma computeScores_ok (tags : List Tag) (h : ∀ t ∈ tags, t.name.isSome) :
    computeScores tags = .ok (finalBoard tags) := by
  rw [computeScores, finalBoard]
  have := foldlM_stepTag tags (fun _ => 0) h
  rw [show initScores = SPORT_KEYWORDS.map fun p => (p.1, (fun _ => (0:ℚ)) p)
    from rfl]
  rw [this]
  rfl

/-! ### Lemmas about the final `max` selection -/

lemma pickBest_nil (b : String × ℚ) : pickBest b [] = b := rfl

lemma pickBest_cons (b x : String × ℚ) (l : ScoreBoard) :
    pickBest b (x :: l) = pickBest (if x.2 > b.2 then x else b) l := rfl

/-- Scanning never decreases the running best's score. -/
lemma le_pickBest (l : ScoreBoard) :
    ∀ b : String × ℚ, b.2 ≤ (pickBest b l).2 := by
  induction l with
  | nil => intro b; exact le_refl _
  | cons x l ih =>
    intro b
    rw [pickBest_cons]
    by_cases hx : x.2 > b.2
    · rw [if_pos hx]
      exact le_trans (le_of_lt hx) (ih x)
    · rw [if_neg hx]
      exact ih b

/-- The selected score bounds every scanned entry. -/
lemma pickBest_ub (l : ScoreBoard) :
    ∀ b : String × ℚ, ∀ x ∈ b :: l, x.2 ≤ (pickBest b l).2 := by
  induction l with
  | nil =>
    intro b x hx
    rcases List.mem_cons.mp hx with rfl | h
    · exact le_refl _
    · cases h
  | cons y l ih =>
    intro b x hx
    rw [pickBest_cons]
    have hble : b.2 ≤ (if y.2 > b.2 then y else b).2 := by
      by_cases hy : y.2 > b.2
      · rw [if_pos hy]; exact le_of_lt hy
      · rw [if_neg hy]
    have hyle : y.2 ≤ (if y.2 > b.2 then y else b).2 := by
      by_cases hy : y.2 > b.2
      · rw [if_pos hy]
      · rw [if_neg hy]; exact le_of_not_lt hy
    rcases List.mem_cons.mp hx with rfl | h
    · exact le_trans hble (le_pickBest l _)
    · rcases List.mem_cons.mp h with rfl | h2
      · exact le_trans hyle (le_pickBest l _)
      · exact ih _ x (List.mem_cons_of_mem _ h2)

/-- If nothing beats the running best strictly, the scan keeps it:
Python's `max` keeps the first maximal element. -/
lemma pickBest_of_le (l : ScoreBoard) :
    ∀ b : String × ℚ, (∀ x ∈ l, x.2 ≤ b.2) → pickBest b l = b := by
  induction l with
  | nil => intro b _; rfl
  | cons x l ih =>
    intro b h
    rw [pickBest_cons, if_neg (not_lt.mpr (h x (List.mem_cons_self _ _)))]
    exact ih b fun y hy => h y (List.mem_cons_of_mem _ hy)

/-- The scan picks the first entry attaining the maximum: everything
strictly before the selected entry scores strictly less. -/
lemma pickBest_first (l : ScoreBoard) :
    ∀ b : String × ℚ, ∃ pre post,
      b :: l = pre ++ pickBest b l :: post ∧
      ∀ x ∈ pre, x.2 < (pickBest b l).2 := by
  induction l with
  | nil => intro b; exact ⟨[], [], rfl, by intro x hx; cases hx⟩
  | cons y l ih =>
    intro b
    rw [pickBest_cons]
    by_cases hy : y.2 > b.2
    · rw [if_pos hy]
      obtain ⟨pre, post, hsplit, hlt⟩ := ih y
      refine ⟨b :: pre, post, by rw [List.cons_append, ← hsplit], ?_⟩
      intro x hx
      rcases List.mem_cons.mp hx with rfl | h
      · exact lt_of_lt_of_le hy (le_pickBest l y)
      · exact hlt x h
    · rw [if_neg hy]
      obtain ⟨pre, post, hsplit, hlt⟩ := ih b
      cases pre with
      | nil =>
        rw [List.nil_append] at hsplit
        injection hsplit with h1 h2
        refine ⟨[], y :: l, ?_, by intro x hx; cases hx⟩
        rw [List.nil_append, ← h1]
      | cons p pre' =>
        rw [List.cons_append] at hsplit
        injection hsplit with h1 h2
        have hb2 : b.2 < (pickBest b l).2 := by
          have hp := hlt p (List.mem_cons_self _ _)
          rw [← h1] at hp
          exact hp
        refine ⟨b :: y :: pre', post, ?_, ?_⟩
        · rw [List.cons_append, List.cons_append, ← h2]
        · intro x hx
          rcases List.mem_cons.mp hx with rfl | h
          · exact hb2
          · rcases List.mem_cons.mp h with rfl | h2
            · exact lt_of_le_of_lt (not_lt.mp hy) hb2
            · exact hlt x (List.mem_cons_of_mem _ h2)

/-- On well-named tags the whole routine succeeds and returns the scan
winner of `finalBoard` together with the board itself. -/
lemma predict_ok_spec (tags : List Tag) (h : ∀ t ∈ tags, t.name.isSome)
    (hd : String × ℚ) (tl : ScoreBoard) (hfb : finalBoard tags = hd :: tl) :
    predict_sport_from_tags tags
      = .ok ((pickBest hd tl).1, (pickBest hd tl).2, hd :: tl) := by
  unfold predict_sport_from_tags
  rw [computeScores_ok tags h, hfb]

/-! ### Relating the per-category fold to the spec's maximum -/

lemma foldl_cond_max (P : Tag → Bool) (tags : List Tag) :
    ∀ a : ℚ,
      tags.foldl (fun v t => if P t then max v (confOf t) else v) a
        = ((tags.filter P).map confOf).foldl max a := by
  induction tags with
  | nil => intro a; rfl
  | cons t rest ih =>
    intro a
    rw [List.foldl_cons, List.filter_cons]
    by_cases h : P t
    · rw [if_pos h, if_pos h, List.map_cons, List.foldl_cons]
      exact ih _
    · rw [if_neg h, if_neg h]
      exact ih _

/-- With the data model's non-negative confidences, the implementation's
fold from 0 computes exactly the spec's "maximum confidence among
matching tags, 0.0 when none". -/
lemma specScore_eq_entryScore (kws : List String) (tags : List Tag)
    (hc : ∀ t ∈ tags, 0 ≤ confOf t) :
    specScore kws tags = entryScore kws tags := by
  unfold specScore entryScore
  rw [foldl_cond_max]
  cases hl : (tags.filter (tagMatches kws)).map confOf with
  | nil => rfl
  | cons c cs =>
    have hcc : 0 ≤ c := by
      have hmem : c ∈ (tags.filter (tagMatches kws)).map confOf := by
        rw [hl]
        exact List.mem_cons_self _ _
      obtain ⟨t, ht, rfl⟩ := List.mem_map.mp hmem
      exact hc t (List.mem_of_mem_filter ht)
    show cs.foldl max c = List.foldl max 0 (c :: cs)
    rw [List.foldl_cons, max_eq_right hcc]

/-- A category no tag matches keeps whatever the fold started from. -/
lemma foldl_no_match (kws : List String) (tags : List Tag)
    (h : ∀ t ∈ tags, tagMatches kws t = false) :
    ∀ a : ℚ,
      tags.foldl (fun v t => if tagMatches kws t then max v (confOf t) else v) a
        = a := by
  induction tags with
  | nil => intro a; rfl
  | cons t rest ih =>
    intro a
    rw [List.foldl_cons,
      if_neg (by simp [h t (List.mem_cons_self _ _)])]
    exact ih (fun t' ht' => h t' (List.mem_cons_of_mem _ ht')) a

/-- A single tag contributes `max 0 conf` to a category exactly when it
matches it. -/
lemma entryScore_singleton (kws : List String) (t : Tag) :
    entryScore kws [t]
      = if tagMatches kws t then max 0 (confOf t) else 0 := rfl

/-- The conditional-max fold is invariant under permutations of the tag
list: `max` is associative and commutative and each tag's contribution
is independent of the others. -/
lemma foldl_cond_max_perm (kws : List String) {t1 t2 : List Tag}
    (hp : t1.Perm t2) :
    ∀ a : ℚ,
      t1.foldl (fun v t => if tagMatches kws t then max v (confOf t) else v) a
        = t2.foldl (fun v t => if tagMatches kws t then max v (confOf t) else v) a := by
  induction hp with
  | nil => intro a; rfl
  | cons x _ ih =>
    intro a
    rw [List.foldl_cons, List.foldl_cons]
    exact ih _
  | swap x y l =>
    intro a
    rw [List.foldl_cons, List.foldl_cons, List.foldl_cons, List.foldl_cons]
    congr 1
    by_cases hx : tagMatches kws x <;> by_cases hy : tagMatches kws y <;>
      simp [hx, hy, sup_right_comm]
  | trans _ _ ih1 ih2 =>
    intro a
    rw [ih1, ih2]

/-! ### Congruence of the loop in the tags' lowercased names -/

/-- One loop iteration only looks at the tag's confidence and lowercased
name. -/
lemma stepTag_congr {a b : Tag} (hc : a.confidence = b.confidence)
    (hn : a.name.map lowerStr = b.name.map lowerStr) (sc : ScoreBoard) :
    stepTag sc a = stepTag sc b := by
  cases ha : a.name with
  | none =>
    cases hb : b.name with
    | none => simp only [stepTag, ha, hb]
    | some m =>
      rw [ha, hb] at hn
      cases hn
  | some n =>
    cases hb : b.name with
    | none =>
      rw [ha, hb] at hn
      cases hn
    | some m =>
      rw [ha, hb] at hn
      have hl : lowerStr n = lowerStr m := by simpa using hn
      simp only [stepTag, ha, hb, hl, hc]

/-- The whole loop only looks at confidences and lowercased names. -/
lemma foldlM_stepTag_congr {t1 t2 : List Tag}
    (h : List.Forall₂
      (fun a b => a.confidence = b.confidence ∧
        a.name.map lowerStr = b.name.map lowerStr) t1 t2) :
    ∀ sc : ScoreBoard, t1.foldlM stepTag sc = t2.foldlM stepTag sc := by
  induction h with
  | nil => intro _; rfl
  | cons hr _ ih =>
    rename_i a b l1 l2 _
    intro sc
    rw [List.foldlM_cons, List.foldlM_cons, stepTag_congr hr.1 hr.2]
    cases hs : stepTag sc b with
    | error e => rfl
    | ok sc2 =>
      show l1.foldlM stepTag sc2 = l2.foldlM stepTag sc2
      exact ih sc2

/-! ### Remaining facts about the final board -/

lemma qv_eq_div (n : ℤ) (d : ℕ) (h : d ≠ 0) (c : n.natAbs.Coprime d) :
    qv n d h c = (n : ℚ) / (d : ℚ) := by
  rw [qv, Rat.mk'_eq_divInt, Rat.divInt_eq_div]
  norm_num

lemma finalBoard_ne_nil (tags : List Tag) : finalBoard tags ≠ [] := by
  unfold finalBoard
  simp [SPORT_KEYWORDS]

lemma finalBoard_pairwise (tags : List Tag) :
    (finalBoard tags).Pairwise fun a b => a.1 ≠ b.1 := by
  unfold finalBoard
  rw [List.pairwise_map]
  exact sportKeys_pairwise

lemma finalBoard_map_fst (tags : List Tag) :
    (finalBoard tags).map Prod.fst = SPORT_KEYWORDS.map Prod.fst := by
  unfold finalBoard
  rw [List.map_map]
  rfl

lemma initScores_all_zero : ∀ x ∈ initScores, x.2 = 0 := by decide

/-! ### The claims -/

/-- C3: the classifier raises no exception except on malformed input:
whenever every tag has a name it succeeds and returns a result, and
whenever some tag record lacks the name field it fails with the
`invalidInput` error (the spec's `InvalidInput`; the source's `KeyError`
from `tag["name"]`) rather than silently defaulting. -/
theorem C3_invalid_input (tags : List Tag) :
    ((∀ t ∈ tags, t.name.isSome) →
      ∃ r, predict_sport_from_tags tags = .ok r) ∧
    ((∃ t ∈ tags, t.name = none) →
      predict_sport_from_tags tags = .error .invalidInput) := by
  constructor
  · intro h
    cases hfb : finalBoard tags with
    | nil => exact absurd hfb (finalBoard_ne_nil tags)
    | cons hd tl => exact ⟨_, predict_ok_spec tags h hd tl hfb⟩
  · intro h
    unfold predict_sport_from_tags computeScores
    rw [foldlM_stepTag_err tags initScores h]

/-- C3 witness: a nameless tag record yields the `invalidInput` error,
and the well-formed empty sequence succeeds. -/
theorem C3_invalid_input_witness :
    predict_sport_from_tags [⟨none, some (qv 1 2)⟩]
        = .error .invalidInput ∧
    ∃ r, predict_sport_from_tags [] = .ok r :=
  ⟨(C3_invalid_input [⟨none, some (qv 1 2)⟩]).2
      ⟨⟨none, some (qv 1 2)⟩, List.mem_singleton.mpr rfl, rfl⟩,
    (C3_invalid_input []).1 (by decide)⟩

/-- C6: the classifier is deterministic and side-effect free — it is a
pure function of the input tag sequence, so any two calls with identical
inputs yield identical best category, best score, and scoreboard. -/
theorem C6_deterministic (tags1 tags2 : List Tag) (h : tags1 = tags2) :
    predict_sport_from_tags tags1 = predict_sport_from_tags tags2 := by
  rw [h]

/-- C6 witness: two calls on the same concrete input agree. -/
theorem C6_deterministic_witness :
    predict_sport_from_tags [⟨some "soccer", some (qv 1 2)⟩]
      = predict_sport_from_tags [⟨some "soccer", some (qv 1 2)⟩] :=
  C6_deterministic [⟨some "soccer", some (qv 1 2)⟩]
    [⟨some "soccer", some (qv 1 2)⟩] rfl

/-- C7: on the two-tag scenario `tennis court` at 0.9 and
`tennis racket` at 0.4, the classifier returns best category `Tennis`
with best score 0.9. -/
theorem C7_tennis_scenario :
    (predict_sport_from_tags
        [⟨some "tennis court", some (9/10)⟩,
          ⟨some "tennis racket", some (4/10)⟩]).map
        (fun r => (r.1, r.2.1))
      = .ok ("Tennis", 9/10) := by
  rw [show (9:ℚ)/10 = qv 9 10 from by rw [qv_eq_div]; norm_num]
  rw [show (4:ℚ)/10 = qv 2 5 from by rw [qv_eq_div]; norm_num]
  rfl

/-- C1: for every tag sequence in which each tag has a name (and, per
the data model, a confidence in `[0, 1]` — only non-negativity is
needed — defaulting to 0.0 when absent), the returned ScoreBoard
assigns to every category of the fixed table exactly the maximum
confidence over the tags whose lowercased name contains one of that
category's keywords as a substring, 0.0 when no tag matches: scores are
accumulated by `max`, never summed. -/
theorem C1_scoreboard_is_specScore (tags : List Tag)
    (hname : ∀ t ∈ tags, t.name.isSome)
    (hconf : ∀ t ∈ tags, 0 ≤ confOf t) :
    ∃ best score sb,
      predict_sport_from_tags tags = .ok (best, score, sb) ∧
      ∀ e ∈ SPORT_KEYWORDS, sb.lookup e.1 = some (specScore e.2 tags) := by
  cases hfb : finalBoard tags with
  | nil => exact absurd hfb (finalBoard_ne_nil tags)
  | cons hd tl =>
    refine ⟨(pickBest hd tl).1, (pickBest hd tl).2, hd :: tl,
      predict_ok_spec tags hname hd tl hfb, ?_⟩
    intro e he
    rw [← hfb]
    unfold finalBoard
    rw [lookup_map_key (fun p => entryScore p.2 tags) SPORT_KEYWORDS e
      sportKeys_pairwise he]
    rw [specScore_eq_entryScore e.2 tags hconf]

/-- C1 witness: the scoreboard of a concrete one-tag run satisfies the
per-category maximum characterisation. -/
theorem C1_scoreboard_is_specScore_witness :
    ∃ best score sb,
      predict_sport_from_tags [⟨some "Tennis Court", some (qv 9 10)⟩]
        = .ok (best, score, sb) ∧
      ∀ e ∈ SPORT_KEYWORDS,
        sb.lookup e.1
          = some (specScore e.2 [⟨some "Tennis Court", some (qv 9 10)⟩]) :=
  C1_scoreboard_is_specScore [⟨some "Tennis Court", some (qv 9 10)⟩]
    (by decide) (by decide)

/-- C4: whenever the classifier succeeds, the returned ScoreBoard has an
entry for every category of the fixed keyword table, in the table's
order, and the winning category is a member of that fixed enumeration,
never a synthesized label. -/
theorem C4_board_complete (tags : List Tag)
    (hname : ∀ t ∈ tags, t.name.isSome) :
    ∃ best score sb,
      predict_sport_from_tags tags = .ok (best, score, sb) ∧
      sb.map Prod.fst = SPORT_KEYWORDS.map Prod.fst ∧
      best ∈ SPORT_KEYWORDS.map Prod.fst := by
  cases hfb : finalBoard tags with
  | nil => exact absurd hfb (finalBoard_ne_nil tags)
  | cons hd tl =>
    refine ⟨(pickBest hd tl).1, (pickBest hd tl).2, hd :: tl,
      predict_ok_spec tags hname hd tl hfb, ?_, ?_⟩
    · rw [← hfb]
      exact finalBoard_map_fst tags
    · obtain ⟨pre, post, hsplit, _⟩ := pickBest_first tl hd
      have hmem : pickBest hd tl ∈ hd :: tl := by
        rw [hsplit]
        exact List.mem_append_right _ (List.mem_cons_self _ _)
      have hin : (pickBest hd tl).1 ∈ (hd :: tl).map Prod.fst :=
        List.mem_map_of_mem Prod.fst hmem
      have hfst : (hd :: tl).map Prod.fst = SPORT_KEYWORDS.map Prod.fst := by
        rw [← hfb]
        exact finalBoard_map_fst tags
      rw [← hfst]
      exact hin

/-- C4 witness: a concrete run has a complete board and a table-member
winner. -/
theorem C4_board_complete_witness :
    ∃ best score sb,
      predict_sport_from_tags [⟨some "cat", some (qv 99 100)⟩]
        = .ok (best, score, sb) ∧
      sb.map Prod.fst = SPORT_KEYWORDS.map Prod.fst ∧
      best ∈ SPORT_KEYWORDS.map Prod.fst :=
  C4_board_complete [⟨some "cat", some (qv 99 100)⟩] (by decide)

/-- C5: tag names are treated case-insensitively: replacing any tag's
name by a string with the same lowercasing (for example `Soccer Ball`
versus `soccer ball`), confidences unchanged, yields an identical
scoreboard, best category, and best score. -/
theorem C5_case_insensitive (tags1 tags2 : List Tag)
    (h : List.Forall₂
      (fun a b => a.confidence = b.confidence ∧
        a.name.map lowerStr = b.name.map lowerStr) tags1 tags2) :
    predict_sport_from_tags tags1 = predict_sport_from_tags tags2 := by
  have hcs : computeScores tags1 = computeScores tags2 :=
    foldlM_stepTag_congr h initScores
  unfold predict_sport_from_tags
  rw [hcs]

/-- C5 witness: `Soccer Ball` and `soccer ball` give identical results. -/
theorem C5_case_insensitive_witness :
    predict_sport_from_tags [⟨some "Soccer Ball", some (qv 1 2)⟩]
      = predict_sport_from_tags [⟨some "soccer ball", some (qv 1 2)⟩] :=
  C5_case_insensitive _ _
    (List.Forall₂.cons ⟨rfl, by decide⟩ List.Forall₂.nil)

/-- C10: the result is invariant under permutation of the input
sequence: for well-formed tags, any reordering yields the same
scoreboard, best category, and best score. -/
theorem C10_perm_invariant (tags1 tags2 : List Tag)
    (hperm : tags1.Perm tags2)
    (hname : ∀ t ∈ tags1, t.name.isSome) :
    predict_sport_from_tags tags1 = predict_sport_from_tags tags2 := by
  have hname2 : ∀ t ∈ tags2, t.name.isSome := fun t ht =>
    hname t (hperm.mem_iff.mpr ht)
  have hboard : finalBoard tags1 = finalBoard tags2 := by
    unfold finalBoard
    apply List.map_congr_left
    intro p _
    have := foldl_cond_max_perm p.2 hperm 0
    rw [show entryScore p.2 tags1
        = entryScore p.2 tags2 from this]
  unfold predict_sport_from_tags
  rw [computeScores_ok tags1 hname, computeScores_ok tags2 hname2, hboard]

/-- C10 witness: swapping two concrete tags leaves the result
unchanged. -/
theorem C10_perm_invariant_witness :
    predict_sport_from_tags
        [⟨some "tennis", some (qv 1 2)⟩, ⟨some "golf", some (qv 1 4)⟩]
      = predict_sport_from_tags
        [⟨some "golf", some (qv 1 4)⟩, ⟨some "tennis", some (qv 1 2)⟩] :=
  C10_perm_invariant _ _ (List.Perm.swap _ _ _) (by decide)

/-- C8: whenever the classifier succeeds, the returned best score is the
ScoreBoard entry of the returned best category, and it is the maximum
over all entries of the board. -/
theorem C8_best_score_is_max (tags : List Tag)
    (hname : ∀ t ∈ tags, t.name.isSome) :
    ∃ best score sb,
      predict_sport_from_tags tags = .ok (best, score, sb) ∧
      sb.lookup best = some score ∧
      score ∈ sb.map Prod.snd ∧
      ∀ v ∈ sb.map Prod.snd, v ≤ score := by
  cases hfb : finalBoard tags with
  | nil => exact absurd hfb (finalBoard_ne_nil tags)
  | cons hd tl =>
    obtain ⟨pre, post, hsplit, _⟩ := pickBest_first tl hd
    have hmem : pickBest hd tl ∈ hd :: tl := by
      rw [hsplit]
      exact List.mem_append_right _ (List.mem_cons_self _ _)
    have hpw : (hd :: tl).Pairwise fun a b => a.1 ≠ b.1 := by
      rw [← hfb]
      exact finalBoard_pairwise tags
    refine ⟨(pickBest hd tl).1, (pickBest hd tl).2, hd :: tl,
      predict_ok_spec tags hname hd tl hfb, ?_, ?_, ?_⟩
    · exact lookup_eq_of_mem (hd :: tl) hpw hmem
    · exact List.mem_map_of_mem Prod.snd hmem
    · intro v hv
      obtain ⟨x, hx, rfl⟩ := List.mem_map.mp hv
      exact pickBest_ub tl hd x hx

/-- C8 witness: a concrete run's best score is its board entry and the
board maximum. -/
theorem C8_best_score_is_max_witness :
    ∃ best score sb,
      predict_sport_from_tags [⟨some "golf course", some (qv 3 4)⟩]
        = .ok (best, score, sb) ∧
      sb.lookup best = some score ∧
      score ∈ sb.map Prod.snd ∧
      ∀ v ∈ sb.map Prod.snd, v ≤ score :=
  C8_best_score_is_max [⟨some "golf course", some (qv 3 4)⟩] (by decide)

/-- C2: the classifier selects the category with the strictly greatest
score, ties broken by the declared order of the table (first-declared
wins): the selected entry bounds every scoreboard entry and every entry
declared before it scores strictly less; moreover on the empty sequence,
and on any sequence in which no tag matches any keyword, it returns the
first-declared category `Football (Soccer)` with score 0.0 and the
all-zero scoreboard. -/
theorem C2_first_declared_tie_break (tags : List Tag)
    (hname : ∀ t ∈ tags, t.name.isSome) :
    ∃ best score sb,
      predict_sport_from_tags tags = .ok (best, score, sb) ∧
      (∀ x ∈ sb, x.2 ≤ score) ∧
      (∃ pre post, sb = pre ++ (best, score) :: post ∧
        ∀ x ∈ pre, x.2 < score) ∧
      ((tags = [] ∨
          ∀ t ∈ tags, ∀ e ∈ SPORT_KEYWORDS, tagMatches e.2 t = false) →
        best = "Football (Soccer)" ∧ score = 0 ∧ sb = initScores ∧
          ∀ x ∈ sb, x.2 = 0) := by
  cases hfb : finalBoard tags with
  | nil => exact absurd hfb (finalBoard_ne_nil tags)
  | cons hd tl =>
    refine ⟨(pickBest hd tl).1, (pickBest hd tl).2, hd :: tl,
      predict_ok_spec tags hname hd tl hfb, pickBest_ub tl hd, ?_, ?_⟩
    · obtain ⟨pre, post, hsplit, hlt⟩ := pickBest_first tl hd
      exact ⟨pre, post, hsplit, hlt⟩
    · intro hdeg
      have hfb0 : finalBoard tags = initScores := by
        rcases hdeg with rfl | hnom
        · unfold finalBoard initScores
          apply List.map_congr_left
          intro p _
          rfl
        · unfold finalBoard initScores
          apply List.map_congr_left
          intro p hp
          rw [show entryScore p.2 tags = 0 from
            foldl_no_match p.2 tags (fun t ht => hnom t ht p hp) 0]
      have heq : hd :: tl = initScores := by rw [← hfb, hfb0]
      have hhd : hd = ("Football (Soccer)", (0:ℚ)) := by
        have h1 : some hd = initScores.head? := by rw [← heq]; rfl
        have h2 : initScores.head? = some ("Football (Soccer)", (0:ℚ)) := by
          decide
        rw [h2] at h1
        exact Option.some.inj h1
      have hall : ∀ x ∈ tl, x.2 ≤ hd.2 := by
        intro x hx
        have hx0 : x.2 = 0 := initScores_all_zero x
          (by rw [← heq]; exact List.mem_cons_of_mem _ hx)
        rw [hx0, hhd]
      have hpick : pickBest hd tl = hd := pickBest_of_le tl hd hall
      refine ⟨?_, ?_, heq, ?_⟩
      · rw [hpick, hhd]
      · rw [hpick, hhd]
      · intro x hx
        exact initScores_all_zero x (heq ▸ hx)

/-- C2 witness: on the empty sequence the classifier returns the
first-declared category with score 0.0 over the all-zero scoreboard. -/
theorem C2_first_declared_tie_break_witness :
    ∃ best score sb,
      predict_sport_from_tags [] = .ok (best, score, sb) ∧
      (∀ x ∈ sb, x.2 ≤ score) ∧
      (∃ pre post, sb = pre ++ (best, score) :: post ∧
        ∀ x ∈ pre, x.2 < score) ∧
      ((([] : List Tag) = [] ∨
          ∀ t ∈ ([] : List Tag), ∀ e ∈ SPORT_KEYWORDS,
            tagMatches e.2 t = false) →
        best = "Football (Soccer)" ∧ score = 0 ∧ sb = initScores ∧
          ∀ x ∈ sb, x.2 = 0) :=
  C2_first_declared_tie_break [] (by decide)

/-- C9: keyword matching is by substring across all categories at once,
so one tag can contribute its confidence to several categories: the
single tag `american football` with confidence `c` (non-negative per the
data model) sets both the `Football (Soccer)` score — via the keyword
`football` — and the `American Football` score to `c`, and with that tag
alone the classifier returns `Football (Soccer)`, declared earlier,
since ties go to the first-declared category. -/
theorem C9_one_tag_two_categories (c : ℚ) (hc : 0 ≤ c) :
    ∃ sb,
      predict_sport_from_tags [⟨some "american football", some c⟩]
        = .ok ("Football (Soccer)", c, sb) ∧
      sb.lookup "Football (Soccer)" = some c ∧
      sb.lookup "American Football" = some c := by
  have hboard : finalBoard [⟨some "american football", some c⟩]
      = SPORT_KEYWORDS.map fun p =>
          (p.1, if anyKw p.2 "american football" then c else 0) := by
    unfold finalBoard
    apply List.map_congr_left
    intro p _
    rw [entryScore_singleton]
    rw [show tagMatches p.2 ⟨some "american football", some c⟩
        = anyKw p.2 "american football" from rfl]
    by_cases hB : anyKw p.2 "american football"
    · rw [if_pos hB, if_pos hB,
        show confOf ⟨some "american football", some c⟩ = c from rfl,
        max_eq_right hc]
    · rw [if_neg hB, if_neg hB]
  have hcons : finalBoard [⟨some "american football", some c⟩]
      = ("Football (Soccer)", c)
        :: (SPORT_KEYWORDS.tail.map fun p =>
            (p.1, if anyKw p.2 "american football" then c else 0)) := by
    rw [hboard]
    rfl
  have hname : ∀ t ∈ [(⟨some "american football", some c⟩ : Tag)],
      t.name.isSome := by
    intro t ht
    rw [List.mem_singleton] at ht
    subst ht
    rfl
  have hpred := predict_ok_spec _ hname _ _ hcons
  have hpick : pickBest ("Football (Soccer)", c)
      (SPORT_KEYWORDS.tail.map fun p =>
        (p.1, if anyKw p.2 "american football" then c else 0))
      = ("Football (Soccer)", c) := by
    apply pickBest_of_le
    intro x hx
    obtain ⟨p, hp, rfl⟩ := List.mem_map.mp hx
    show (if anyKw p.2 "american football" then c else 0) ≤ c
    by_cases hB : anyKw p.2 "american football"
    · rw [if_pos hB]
    · rw [if_neg hB]
      exact hc
  have hlookF : (finalBoard
        [⟨some "american football", some c⟩]).lookup "Football (Soccer)"
      = some c := by
    rw [hboard]
    have hmap := lookup_map_key
      (fun p => if anyKw p.2 "american football" then c else 0)
      SPORT_KEYWORDS
      ("Football (Soccer)",
        ["soccer", "football", "soccer ball", "football player",
         "soccer player", "goalkeeper", "goal post", "football stadium"])
      sportKeys_pairwise (by decide)
    exact hmap
  have hlookA : (finalBoard
        [⟨some "american football", some c⟩]).lookup "American Football"
      = some c := by
    rw [hboard]
    have hmap := lookup_map_key
      (fun p => if anyKw p.2 "american football" then c else 0)
      SPORT_KEYWORDS
      ("American Football",
        ["american football", "football helmet",
         "american football player", "football pads", "nfl"])
      sportKeys_pairwise (by decide)
    exact hmap
  refine ⟨("Football (Soccer)", c)
      :: (SPORT_KEYWORDS.tail.map fun p =>
          (p.1, if anyKw p.2 "american football" then c else 0)),
    ?_, ?_, ?_⟩
  · rw [hpred, hpick]
  · rw [← hcons]
    exact hlookF
  · rw [← hcons]
    exact hlookA

/-- C9 witness: the concrete tag `american football` at confidence 1/2
scores 1/2 for both football categories and the first-declared one
wins. -/
theorem C9_one_tag_two_categories_witness :
    ∃ sb,
      predict_sport_from_tags [⟨some "american football", some (qv 1 2)⟩]
        = .ok ("Football (Soccer)", qv 1 2, sb) ∧
      sb.lookup "Football (Soccer)" = some (qv 1 2) ∧
      sb.lookup "American Football" = some (qv 1 2) :=
  C9_one_tag_two_categories (qv 1 2) (by decide)

end SportApp
